import Mathlib

/-!
Verification of the line-parsing / variable-expansion core of the zenv
dotenv loader (`src/parser/lines.rs`), as a shallow embedding.

The embedding covers:
* the data model (`Quote`, `KeyVal`) of classified assignment lines;
* `Lines::to_hash_map` (plain-mode projection into a key → value map);
* `Lines::expand` (expand mode: the same projection followed by an
  in-order rewrite of every `Double`-quoted value, resolving `$NAME` and
  `$\x7bNAME\x7d` references against the accumulator and then the ambient
  process environment).

Maps (`HashMap<String, String>` in the source) are embedded as functions
`String → Option String`; `HashMap::insert` is pointwise overwrite, so
last insert wins, matching the source. The ambient process environment
(`std::env::var`) is an explicit parameter `env : String → Option String`,
with `env::var(k).unwrap_or_default()` embedded as `(env k).getD ""`.

The character-level scan loop of `Lines::expand` is embedded as
`expandGo`, recursing on a fuel argument for structural termination; each
loop iteration of the source consumes at least one character, so fuel
equal to the length of the value (as supplied by `expandValue`) is never
exhausted. The original value `v` is threaded through unchanged because
the source recovers the bare-name terminator character by indexing into
`v` from the end (`v.chars().rev().skip(idx).take(1).next()`).
-/

/-- Quoting style of a classified assignment line: Rust `enum Quote { None, Single, Double }`. -/
inductive Quote where
  | None
  | Single
  | Double
deriving DecidableEq

/-- A classified key/value assignment line: Rust `struct KeyVal { k, v, q }`
(key, raw value with quote characters already stripped, quoting style). -/
structure KeyVal where
  k : String
  v : String
  q : Quote
deriving DecidableEq

/-- Embedding of `HashMap<String, String>` as a partial function. -/
abbrev Strmap := String → Option String

/-- `HashMap::insert`: pointwise overwrite of one key. -/
def mapInsert (m : Strmap) (key val : String) : Strmap :=
  fun x => if x = key then some val else m x

/-- The empty map (`HashMap::with_capacity(_)` starts empty). -/
def emptyMap : Strmap := fun _ => Option.none

/-- `Lines::to_hash_map`: insert every line's key/value into a fresh map, in order. -/
def to_hash_map (lines : List KeyVal) : Strmap :=
  lines.foldl (fun h line => mapInsert h line.k line.v) emptyMap

/-- The identifier-character test of the bare-reference scan:
Rust `c.is_alphanumeric() || c == &'_'` (ASCII fragment of `is_alphanumeric`). -/
def isIdentChar (c : Char) : Bool := c.isAlphanum || c == '_'

/-- `env::var(&key).unwrap_or_default()`: ambient-environment lookup defaulting to `""`. -/
def envOrDefault (env : Strmap) (key : String) : String := (env key).getD ""

/-- Reference resolution in `Lines::expand`:
`match vars.get(&key) { Some(x) => x, _ => env::var(&key).unwrap_or_default() }`. -/
def resolveRef (vars env : Strmap) (key : String) : String :=
  match vars key with
  | some x => x
  | Option.none => envOrDefault env key

/-- The character-scan loop of `Lines::expand` over one `Double`-quoted value.
`v` is the full original value (used only to recover the consumed terminator
character, exactly as the source does via `v.chars().rev().skip(idx)`), and the
last argument is the iterator's remaining suffix. `fuel` only forces structural
termination: each source loop iteration consumes at least one character, so the
`(0, _ :: _)` branch is unreachable for the fuel chosen by `expandValue`.

* `'$'` then `'{'`: the name is everything up to (and including, in terms of
  consumption) the first `'}'`; nothing extra is appended afterwards.
* `'$'` then any other character `x`: the name is `x` plus the following run of
  identifier characters; `take_while` also consumes the terminating character,
  which is re-appended from `v` — unless `idx = 0`, i.e. the iterator is
  exhausted, in which case the source `continue`s without appending it.
* `'$'` at the very end: the name is the empty string, nothing is re-appended.
* any other character is copied through. -/
def expandGo (vars env : Strmap) (v : List Char) : Nat → List Char → List Char
  | _, [] => []
  | 0, _ :: _ => []
  | fuel + 1, c :: rest =>
    if c = '$' then
      match rest with
      | '{' :: rest2 =>
          let key := String.mk (rest2.takeWhile (fun d => d != '}'))
          let rest3 := (rest2.dropWhile (fun d => d != '}')).drop 1
          (resolveRef vars env key).toList ++ expandGo vars env v fuel rest3
      | x :: rest2 =>
          let key := String.mk (x :: rest2.takeWhile isIdentChar)
          let rest3 := (rest2.dropWhile isIdentChar).drop 1
          let found := (resolveRef vars env key).toList
          let idx := rest3.length
          if idx = 0 then
            found ++ expandGo vars env v fuel rest3
          else
            match (v.reverse.drop idx).head? with
            | some consumed => found ++ consumed :: expandGo vars env v fuel rest3
            | Option.none => found ++ expandGo vars env v fuel rest3
      | [] => (resolveRef vars env "").toList ++ expandGo vars env v fuel []
    else
      c :: expandGo vars env v fuel rest

/-- Rewrite one `Double`-quoted value: run the scan loop over its characters. -/
def expandValue (vars env : Strmap) (v : String) : String :=
  String.mk (expandGo vars env v.toList v.toList.length v.toList)

/-- One iteration of the `for line in &self.lines` loop of `Lines::expand`:
a `Double`-quoted entry is rewritten against the current accumulator and stored
back under its key, any other entry leaves the accumulator untouched. -/
def expandStep (env : Strmap) (vars : Strmap) (line : KeyVal) : Strmap :=
  match line.q with
  | Quote.Double => mapInsert vars line.k (expandValue vars env line.v)
  | _ => vars

/-- `Lines::expand`: seed the accumulator with the full plain mapping, then in
file order rewrite every `Double`-quoted entry against the current accumulator
and store the result back under the entry's key. -/
def expand (lines : List KeyVal) (env : Strmap) : Strmap :=
  lines.foldl (expandStep env) (to_hash_map lines)

/-! ### Helper lemmas about the scan loop -/

lemma takeWhile_append_stop (p : Char → Bool) (name : List Char) (x : Char) (tail : List Char)
    (h : ∀ c ∈ name, p c = true) (hx : p x = false) :
    (name ++ x :: tail).takeWhile p = name := by
  induction name with
  | nil => simp [List.takeWhile, hx]
  | cons a as ih =>
      have ha : p a = true := h a (by simp)
      simp only [List.cons_append, List.takeWhile, ha]
      exact congrArg (a :: ·) (ih fun c hc => h c (by simp [hc]))

lemma dropWhile_append_stop (p : Char → Bool) (name : List Char) (x : Char) (tail : List Char)
    (h : ∀ c ∈ name, p c = true) (hx : p x = false) :
    (name ++ x :: tail).dropWhile p = x :: tail := by
  induction name with
  | nil => simp [List.dropWhile, hx]
  | cons a as ih =>
      have ha : p a = true := h a (by simp)
      simp only [List.cons_append, List.dropWhile, ha]
      exact ih fun c hc => h c (by simp [hc])

lemma takeWhile_all (p : Char → Bool) (l : List Char) (h : ∀ c ∈ l, p c = true) :
    l.takeWhile p = l := by
  induction l with
  | nil => rfl
  | cons a as ih =>
      have ha : p a = true := h a (by simp)
      simp only [List.takeWhile, ha]
      exact congrArg (a :: ·) (ih fun c hc => h c (by simp [hc]))

lemma dropWhile_all (p : Char → Bool) (l : List Char) (h : ∀ c ∈ l, p c = true) :
    l.dropWhile p = [] := by
  induction l with
  | nil => rfl
  | cons a as ih =>
      have ha : p a = true := h a (by simp)
      simp only [List.dropWhile, ha]
      exact ih fun c hc => h c (by simp [hc])

/-- A braced reference followed by a first `'}'`: the name is exactly the characters
before that brace, the brace is consumed, and the scan continues on the tail. -/
lemma go_braced (vars env : Strmap) (v : List Char) (fuel : Nat) (name tail : List Char)
    (h : '}' ∉ name) :
    expandGo vars env v (fuel + 1) ('$' :: '{' :: (name ++ '}' :: tail)) =
      (resolveRef vars env (String.mk name)).toList ++ expandGo vars env v fuel tail := by
  have hmem : ∀ c ∈ name, (c != '}') = true := by
    intro c hc
    simp only [bne_iff_ne]
    intro hc2
    exact h (hc2 ▸ hc)
  have ht : (name ++ '}' :: tail).takeWhile (fun d => d != '}') = name :=
    takeWhile_append_stop _ name '}' tail hmem (by simp)
  have hd : (name ++ '}' :: tail).dropWhile (fun d => d != '}') = '}' :: tail :=
    dropWhile_append_stop _ name '}' tail hmem (by simp)
  simp [expandGo, ht, hd]

/-- A braced reference with no closing `'}'` before the end of the value: the name
is the entire remainder and nothing further is appended after the resolved value. -/
lemma go_braced_unterminated (vars env : Strmap) (v : List Char) (fuel : Nat) (name : List Char)
    (h : '}' ∉ name) :
    expandGo vars env v (fuel + 1) ('$' :: '{' :: name) =
      (resolveRef vars env (String.mk name)).toList := by
  have hmem : ∀ c ∈ name, (c != '}') = true := by
    intro c hc
    simp only [bne_iff_ne]
    intro hc2
    exact h (hc2 ▸ hc)
  have ht : name.takeWhile (fun d => d != '}') = name := takeWhile_all _ name hmem
  have hd : name.dropWhile (fun d => d != '}') = [] := dropWhile_all _ name hmem
  simp [expandGo, ht, hd]

/-- Folding plain inserts over lines none of which carry `key` leaves the map
unchanged at `key`. -/
lemma to_hash_map_foldl_no_key (key : String) :
    ∀ (ls : List KeyVal) (acc : Strmap), (∀ e ∈ ls, e.k ≠ key) →
      ls.foldl (fun h line => mapInsert h line.k line.v) acc key = acc key := by
  intro ls
  induction ls with
  | nil => intro acc _; rfl
  | cons e es ih =>
      intro acc h
      simp only [List.foldl_cons]
      rw [ih _ (fun x hx => h x (by simp [hx]))]
      have hne : key ≠ e.k := fun hh => (h e (by simp)) hh.symm
      simp [mapInsert, hne]

/-! ### Claim theorems -/

/-- Claim C1 (code bug): the claim states that the character terminating a bare
`$NAME` scan is always copied to the output after the resolved value, including
when it is the last character of the value, so that `A=hi`, `B="$A!"` expands to
`B ↦ "hi!"`. The code instead drops the terminator in exactly that case: the
`idx == 0` end-of-string guard also fires when the terminator was the final
character, so the two-line input yields `B ↦ "hi"`. -/
theorem C1_terminator_last_char_dropped :
    expand [⟨"A", "hi", Quote.None⟩, ⟨"B", "$A!", Quote.Double⟩] emptyMap "B" = some "hi" ∧
    expand [⟨"A", "hi", Quote.None⟩, ⟨"B", "$A!", Quote.Double⟩] emptyMap "B" ≠ some "hi!" := by
  decide

/-- When the character terminating a bare `$NAME` scan is not the last character
of the value, it is re-appended to the output after the resolved value, as the
claim describes: `B="$A!x"` expands to `hi!x`. -/
lemma terminator_midstring_copied :
    expand [⟨"A", "hi", Quote.None⟩, ⟨"B", "$A!x", Quote.Double⟩] emptyMap "B" = some "hi!x" := by
  decide

/-- Claim C2: in expand mode a `${`-reference takes as its name exactly the
characters up to the first `'}'` (which terminates it regardless of what
follows, so there is no nested-brace support), and when no closing `'}'`
exists the name is the entire remainder of the value and nothing further is
appended after the resolved value; no error is raised (the scan is total). -/
theorem C2_braced_reference (vars env : Strmap) (v : List Char) (fuel : Nat)
    (name tail : List Char) (h : '}' ∉ name) :
    expandGo vars env v (fuel + 1) ('$' :: '{' :: (name ++ '}' :: tail)) =
      (resolveRef vars env (String.mk name)).toList ++ expandGo vars env v fuel tail ∧
    expandGo vars env v (fuel + 1) ('$' :: '{' :: name) =
      (resolveRef vars env (String.mk name)).toList :=
  ⟨go_braced vars env v fuel name tail h, go_braced_unterminated vars env v fuel name h⟩

/-- Witness for C2 at the concrete name `U` and empty tail. -/
theorem C2_braced_reference_witness :
    ('}' ∉ (['U'] : List Char)) ∧
    (expandGo emptyMap emptyMap [] 1 ('$' :: '{' :: (['U'] ++ '}' :: [])) =
      (resolveRef emptyMap emptyMap (String.mk ['U'])).toList ++ expandGo emptyMap emptyMap [] 0 [] ∧
    expandGo emptyMap emptyMap [] 1 ('$' :: '{' :: ['U']) =
      (resolveRef emptyMap emptyMap (String.mk ['U'])).toList) :=
  ⟨by decide, C2_braced_reference emptyMap emptyMap [] 0 ['U'] [] (by decide)⟩

/-- Claim C5: the plain-mode projection makes later entries with a duplicate key
overwrite earlier ones; any input defining `K=1` and later `K=2` (with no later
redefinition of `K`) maps `K` to `"2"`. -/
theorem C5_duplicate_last_wins (pre mid post : List KeyVal) (q1 q2 : Quote)
    (h : ∀ e ∈ post, e.k ≠ "K") :
    to_hash_map (pre ++ ⟨"K", "1", q1⟩ :: (mid ++ ⟨"K", "2", q2⟩ :: post)) "K" = some "2" := by
  unfold to_hash_map
  rw [List.foldl_append, List.foldl_cons, List.foldl_append, List.foldl_cons]
  rw [to_hash_map_foldl_no_key "K" post _ h]
  simp [mapInsert]

/-- Witness for C5 with empty `pre`, `mid`, `post`. -/
theorem C5_duplicate_last_wins_witness :
    (∀ e ∈ ([] : List KeyVal), e.k ≠ "K") ∧
    to_hash_map ([] ++ ⟨"K", "1", Quote.None⟩ :: ([] ++ ⟨"K", "2", Quote.None⟩ :: [])) "K" =
      some "2" :=
  ⟨by simp, C5_duplicate_last_wins [] [] [] Quote.None Quote.None (by simp)⟩

/-- Claim C6: the expand-mode accumulator is seeded with the full plain mapping
before any entry is expanded, and a rewritten value is stored back only after
its rewrite completes; hence `X="${X}"` resolves to its own pre-expansion raw
value, and a reference to a variable defined later in the file resolves to that
variable's raw value. -/
theorem C6_seeded_accumulator :
    expand [⟨"X", "${X}", Quote.Double⟩] emptyMap "X" = some "${X}" ∧
    expand [⟨"A", "${B}", Quote.Double⟩, ⟨"B", "later", Quote.None⟩] emptyMap "A" =
      some "later" := by
  decide

/-- Claim C8: the plain-mode projection is a pure function of the classified
line sequence (in the source it reads `&self` and builds a fresh map, mutating
nothing), so running it twice on the same sequence yields identical maps. -/
theorem C8_projection_idempotent (lines : List KeyVal) :
    to_hash_map lines = to_hash_map lines := rfl

/-- Claim C3: a reference name is resolved first against the accumulator, then
against the ambient environment, and resolves to the empty string when absent
from both, without error; in particular `X="${UNSET}"` with `UNSET` absent from
the file and with `env "UNSET" = none` expands to `X ↦ ""`. -/
theorem C3_resolution_order (vars env : Strmap) (key : String)
    (henv : env "UNSET" = Option.none) :
    (∀ x, vars key = some x → resolveRef vars env key = x) ∧
    (vars key = Option.none → ∀ x, env key = some x → resolveRef vars env key = x) ∧
    (vars key = Option.none → env key = Option.none → resolveRef vars env key = "") ∧
    expand [⟨"X", "${UNSET}", Quote.Double⟩] env "X" = some "" := by
  refine ⟨?_, ?_, ?_, ?_⟩
  · intro x hx
    simp [resolveRef, hx]
  · intro h0 x hx
    simp [resolveRef, h0, envOrDefault, hx]
  · intro h0 h1
    simp [resolveRef, h0, envOrDefault, h1]
  · have hkey : expand [⟨"X", "${UNSET}", Quote.Double⟩] env "X"
        = some (String.mk (((env "UNSET").getD "").toList ++ [])) := rfl
    rw [hkey, henv]
    decide

/-- Witness for C3 at the all-empty accumulator and environment. -/
theorem C3_resolution_order_witness :
    (emptyMap "UNSET" = Option.none) ∧
    ((∀ x, emptyMap "K" = some x → resolveRef emptyMap emptyMap "K" = x) ∧
     (emptyMap "K" = Option.none → ∀ x, emptyMap "K" = some x →
       resolveRef emptyMap emptyMap "K" = x) ∧
     (emptyMap "K" = Option.none → emptyMap "K" = Option.none →
       resolveRef emptyMap emptyMap "K" = "") ∧
     expand [⟨"X", "${UNSET}", Quote.Double⟩] emptyMap "X" = some "") :=
  ⟨rfl, C3_resolution_order emptyMap emptyMap "K" rfl⟩

/-- The expand-pass step at a key the line does not carry leaves the map
unchanged there. -/
lemma expandStep_ne_key (env acc : Strmap) (e : KeyVal) (key : String) (h : e.k ≠ key) :
    expandStep env acc e key = acc key := by
  rcases e with ⟨k0, v0, q0⟩
  have hne : key ≠ k0 := fun hh => h hh.symm
  cases q0 <;> simp [expandStep, mapInsert, hne]

/-- Folding the expand pass over lines none of which is a `Double`-quoted entry
for `key` leaves the map unchanged at `key`. -/
lemma expand_foldl_no_double_key (env : Strmap) (key : String) :
    ∀ (ls : List KeyVal) (acc : Strmap),
      (∀ e ∈ ls, e.k = key → e.q ≠ Quote.Double) →
      (ls.foldl (expandStep env) acc) key = acc key := by
  intro ls
  induction ls with
  | nil => intro acc _; rfl
  | cons e es ih =>
      intro acc h
      simp only [List.foldl_cons]
      rw [ih _ (fun x hx => h x (by simp [hx]))]
      by_cases hk : e.k = key
      · have hq : e.q ≠ Quote.Double := h e (by simp) hk
        rcases e with ⟨k0, v0, q0⟩
        cases q0 <;> simp_all [expandStep]
      · exact expandStep_ne_key env acc e key hk

/-- Claim C4 counterexample: the claim says every `Single`- or `None`-quoted
entry keeps its raw classifier value in the expand-mode result, but an earlier
`Double`-quoted entry with the same key overwrites it: in
`K="$A"`, `K='raw'`, `A=hi` the `Single`-quoted entry `K ↦ raw` ends up with
value `"hi"`, not `"raw"`. -/
theorem C4_counterexample :
    (⟨"K", "raw", Quote.Single⟩ : KeyVal) ∈
      [⟨"K", "$A", Quote.Double⟩, ⟨"K", "raw", Quote.Single⟩, ⟨"A", "hi", Quote.None⟩] ∧
    expand [⟨"K", "$A", Quote.Double⟩, ⟨"K", "raw", Quote.Single⟩, ⟨"A", "hi", Quote.None⟩]
      emptyMap "K" = some "hi" ∧
    some "hi" ≠ some "raw" := by
  decide

/-- Claim C4 (amended): in expand mode, entries whose quote is `Single` or
`None` are never themselves rewritten; for every key none of whose entries is
`Double`-quoted, the expand-mode result equals the plain-mode raw value (a
`Single`/`None` entry can still be overwritten by a `Double` entry sharing its
key). -/
theorem C4_single_none_passthrough (lines : List KeyVal) (env : Strmap) (key : String)
    (h : ∀ e ∈ lines, e.k = key → e.q ≠ Quote.Double) :
    expand lines env key = to_hash_map lines key :=
  expand_foldl_no_double_key env key lines (to_hash_map lines) h

/-- Witness for C4 (amended) on a one-line `Single`-quoted file. -/
theorem C4_single_none_passthrough_witness :
    (∀ e ∈ [(⟨"K", "raw", Quote.Single⟩ : KeyVal)], e.k = "K" → e.q ≠ Quote.Double) ∧
    expand [⟨"K", "raw", Quote.Single⟩] emptyMap "K" =
      to_hash_map [⟨"K", "raw", Quote.Single⟩] "K" :=
  ⟨by decide, C4_single_none_passthrough [⟨"K", "raw", Quote.Single⟩] emptyMap "K" (by decide)⟩

/-- Claim C7: a resolved value is spliced into the rewritten value verbatim —
for every accumulator and environment, expanding the value `${B}` yields exactly
whatever string `B` resolves to, with no re-scan of its contents — and hence a
multi-hop chain is not resolved recursively: in
`A="${B}"`, `B="${C}"`, `C=val`, the entry `A` ends up as the raw text `${C}`. -/
theorem C7_verbatim_no_recursion :
    (∀ vars env : Strmap, expandValue vars env "${B}" = resolveRef vars env "B") ∧
    expand [⟨"A", "${B}", Quote.Double⟩, ⟨"B", "${C}", Quote.Double⟩, ⟨"C", "val", Quote.None⟩]
      emptyMap "A" = some "${C}" := by
  constructor
  · intro vars env
    have hkey : expandValue vars env "${B}"
        = String.mk ((resolveRef vars env "B").toList ++ []) := rfl
    rw [hkey, List.append_nil]
    rfl
  · decide

/-- After folding plain inserts, a key is present iff it was present before or
some folded line carries it. -/
lemma to_hash_map_foldl_isSome (key : String) :
    ∀ (ls : List KeyVal) (acc : Strmap),
      ((ls.foldl (fun h line => mapInsert h line.k line.v) acc) key).isSome
        ↔ ((∃ e ∈ ls, e.k = key) ∨ (acc key).isSome) := by
  intro ls
  induction ls with
  | nil => intro acc; simp
  | cons e es ih =>
      intro acc
      simp only [List.foldl_cons]
      rw [ih]
      have hstep : ((mapInsert acc e.k e.v) key).isSome ↔ (key = e.k ∨ (acc key).isSome) := by
        by_cases hk : key = e.k <;> simp [mapInsert, hk]
      rw [hstep]
      constructor
      · rintro (⟨x, hx, hxk⟩ | hk | hacc)
        · exact Or.inl ⟨x, by simp [hx], hxk⟩
        · exact Or.inl ⟨e, by simp, hk.symm⟩
        · exact Or.inr hacc
      · rintro (⟨x, hx, hxk⟩ | hacc)
        · rcases (List.mem_cons).mp hx with hx1 | hx2
          · exact Or.inr (Or.inl (hx1 ▸ hxk).symm)
          · exact Or.inl ⟨x, hx2, hxk⟩
        · exact Or.inr (Or.inr hacc)

/-- After folding the expand pass, a key is present iff it was present before or
some folded `Double`-quoted line carries it. -/
lemma expand_foldl_isSome (env : Strmap) (key : String) :
    ∀ (ls : List KeyVal) (acc : Strmap),
      ((ls.foldl (expandStep env) acc) key).isSome
        ↔ ((∃ e ∈ ls, e.k = key ∧ e.q = Quote.Double) ∨ (acc key).isSome) := by
  intro ls
  induction ls with
  | nil => intro acc; simp
  | cons e es ih =>
      intro acc
      simp only [List.foldl_cons]
      rw [ih]
      have hstep : ((expandStep env acc e) key).isSome
          ↔ ((key = e.k ∧ e.q = Quote.Double) ∨ (acc key).isSome) := by
        rcases e with ⟨k0, v0, q0⟩
        cases q0 <;> by_cases hk : key = k0 <;> simp [expandStep, mapInsert, hk]
      rw [hstep]
      constructor
      · rintro (⟨x, hx, hxk, hxq⟩ | ⟨hk, hq⟩ | hacc)
        · exact Or.inl ⟨x, by simp [hx], hxk, hxq⟩
        · exact Or.inl ⟨e, by simp, hk.symm, hq⟩
        · exact Or.inr hacc
      · rintro (⟨x, hx, hxk, hxq⟩ | hacc)
        · rcases (List.mem_cons).mp hx with hx1 | hx2
          · exact Or.inr (Or.inl ⟨(hx1 ▸ hxk).symm, hx1 ▸ hxq⟩)
          · exact Or.inl ⟨x, hx2, hxk, hxq⟩
        · exact Or.inr (Or.inr hacc)

/-- Claim C9: the expand-mode map has exactly the same set of keys as the
plain-mode map on the same line sequence: expansion only overwrites values of
keys already present in the base mapping and never adds or removes a key. -/
theorem C9_same_key_set (lines : List KeyVal) (env : Strmap) (key : String) :
    (expand lines env key).isSome ↔ (to_hash_map lines key).isSome := by
  show ((lines.foldl (expandStep env) (to_hash_map lines)) key).isSome ↔ _
  rw [expand_foldl_isSome env key lines (to_hash_map lines)]
  constructor
  · rintro (⟨e, he, hk, _⟩ | h)
    · show ((lines.foldl (fun h line => mapInsert h line.k line.v) emptyMap) key).isSome
      exact (to_hash_map_foldl_isSome key lines emptyMap).mpr (Or.inl ⟨e, he, hk⟩)
    · exact h
  · intro h
    exact Or.inr h

/-- Copying a run of ordinary (non-`'$'`) characters followed by a final lone
`'$'`: the characters pass through and the trailing `'$'` becomes a reference
with the empty name. Fuel is any value at least the length of the input. -/
lemma go_trailing_dollar (vars env : Strmap) (v : List Char) :
    ∀ (xs : List Char) (fuel : Nat), '$' ∉ xs →
      expandGo vars env v (xs.length + (fuel + 1)) (xs ++ ['$']) =
        xs ++ (resolveRef vars env "").toList := by
  intro xs
  induction xs with
  | nil =>
      intro fuel _
      simp [expandGo]
  | cons a as ih =>
      intro fuel h
      have ha : ¬(a = '$') := fun hh => h (by simp [hh])
      have hlen : (a :: as).length + (fuel + 1) = (as.length + (fuel + 1)) + 1 := by
        simp [List.length_cons]
        omega
      rw [hlen]
      simp only [List.cons_append, expandGo, ha, if_false]
      exact congrArg (a :: ·) (ih fuel (fun hm => h (by simp [hm])))

/-- Claim C10: a `'$'` occurring as the last character of a `Double`-quoted
value is treated as a reference with the empty string as its name (resolved via
the usual accumulator-then-environment lookup), and the `'$'` character itself
never appears in the output. -/
theorem C10_trailing_dollar (vars env : Strmap) (xs : List Char) (h : '$' ∉ xs) :
    expandValue vars env (String.mk (xs ++ ['$'])) =
      String.mk (xs ++ (resolveRef vars env "").toList) := by
  show String.mk (expandGo vars env (xs ++ ['$']) (xs ++ ['$']).length (xs ++ ['$'])) = _
  have hlen : (xs ++ ['$']).length = xs.length + (0 + 1) := by simp
  rw [hlen, go_trailing_dollar vars env (xs ++ ['$']) xs 0 h]

/-- Witness for C10 at the concrete value `ab$`. -/
theorem C10_trailing_dollar_witness :
    ('$' ∉ (['a', 'b'] : List Char)) ∧
    expandValue emptyMap emptyMap (String.mk (['a', 'b'] ++ ['$'])) =
      String.mk (['a', 'b'] ++ (resolveRef emptyMap emptyMap "").toList) :=
  ⟨by decide, C10_trailing_dollar emptyMap emptyMap ['a', 'b'] (by decide)⟩
